import Mathlib

/-!
A Lean model of the lexical front end of the two-week-script-by-rust repository.

The model is a shallow embedding of the two source files:

* src/ast.rs   — the tree container (enum ASTree with LEAF and LIST variants,
  indexed child access, child counting, a child iterator, and location reporting);
* src/lexer.rs — the streaming tokenizer (struct Lexer with a FIFO token queue,
  consuming read, non-consuming indexed peek, and a per-line scan driven by the
  composite pattern TOKEN_REG_STR).

Conventions of the embedding:

* Rust strings and lines of input are represented as List Char; u32 line counters
  and usize indices are represented as Nat (no operation here can overflow them);
  the i32 numeric value is represented as Int together with an explicit range
  check mirroring parse::<i32>.
* Result<T, String> is represented as Except String T.  A Rust panic (the unwrap
  in ASTree::location on an empty list) is represented as the value none of an
  Option result, since the aborting computation produces no value at all.
* The BufReader is represented as the list of lines it will yield, in order; a
  read_line call that returns 0 bytes corresponds to that list being empty.
* The two source-level loops (the captures_iter loop in Lexer::read_line and the
  while loop in Lexer::fill_queue) and the repeated-read observation are encoded
  with an explicit recursion bound (fuel); each public wrapper instantiates the
  fuel with a bound proved sufficient below, so the bounded recursion never cuts
  a run short (theorems scanTokensFuel_adequate and fillFuel behavior lemmas).
* The composite pattern is applied with the leftmost-first alternation and greedy
  repetition semantics of the regex crate; the alternatives have pairwise
  disjoint first characters except for string literals versus punctuation, where
  an unterminated string literal falls back to a one-character punctuation token.
-/

namespace TwoWeekScript

/-- Characters matched by the whitespace class of the scanning pattern.  The
regex crate compiles the class in Unicode mode (the pattern carries no
(?-u)), so it is the Unicode White_Space set: U+0009..U+000D, the space,
U+0085, U+00A0, U+1680, U+2000..U+200A, U+2028, U+2029, U+202F, U+205F and
U+3000. -/
def isWs (c : Char) : Bool :=
  (9 ≤ c.toNat && c.toNat ≤ 13) || c.toNat == 32 || c.toNat == 133 ||
  c.toNat == 160 || c.toNat == 5760 || (8192 ≤ c.toNat && c.toNat ≤ 8202) ||
  c.toNat == 8232 || c.toNat == 8233 || c.toNat == 8239 || c.toNat == 8287 ||
  c.toNat == 12288

/-- Characters matched by the digit class 0-9 of the numeric alternative. -/
def isDigit (c : Char) : Bool := '0' ≤ c && c ≤ '9'

/-- Characters allowed to start an identifier: A-Z, underscore, a-z. -/
def isIdStart (c : Char) : Bool :=
  ('A' ≤ c && c ≤ 'Z') || ('a' ≤ c && c ≤ 'z') || c == '_'

/-- Characters allowed inside an identifier: A-Z, underscore, a-z, 0-9. -/
def isIdChar (c : Char) : Bool := isIdStart c || isDigit c

/-- The ASCII punctuation class (the punct POSIX class of the final
one-character alternative of the pattern). -/
def isPunct (c : Char) : Bool :=
  (33 ≤ c.toNat && c.toNat ≤ 47) || (58 ≤ c.toNat && c.toNat ≤ 64) ||
  (91 ≤ c.toNat && c.toNat ≤ 96) || (123 ≤ c.toNat && c.toNat ≤ 126)

/-- Value of a run of decimal digit characters. -/
def digitsVal (ds : List Char) : Nat :=
  ds.foldl (fun a c => 10 * a + (c.toNat - 48)) 0

/-- The token categories of lexer.rs (enum Category). -/
inductive Category where
  | IDENTIFIER
  | NUMBER
  | STRING
  | EOL
  | EOF
deriving DecidableEq

/-- The closed set of token shapes of lexer.rs: the four concrete structs
IdToken, NumberToken, StringToken, EolToken, EofToken behind the Token trait
collapse to one tagged union (identifiers carry their text, numbers their i32
value, strings their stored literal). -/
inductive Token where
  | IDENTIFIER (line_number : Nat) (text : List Char)
  | NUMBER (line_number : Nat) (number : Int)
  | STRING (line_number : Nat) (literal : List Char)
  | EOL (line_number : Nat)
  | EOF (line_number : Nat)
deriving DecidableEq

/-- Token::get_category. -/
def Token.get_category : Token → Category
  | Token.IDENTIFIER _ _ => Category.IDENTIFIER
  | Token.NUMBER _ _ => Category.NUMBER
  | Token.STRING _ _ => Category.STRING
  | Token.EOL _ => Category.EOL
  | Token.EOF _ => Category.EOF

/-- Token::get_line_number. -/
def Token.get_line_number : Token → Nat
  | Token.IDENTIFIER n _ => n
  | Token.NUMBER n _ => n
  | Token.STRING n _ => n
  | Token.EOL n => n
  | Token.EOF n => n

/-- Token::get_text (the number variant renders its value back to decimal;
the end-of-line and end-of-input variants return the empty string). -/
def Token.get_text : Token → List Char
  | Token.IDENTIFIER _ id => id
  | Token.NUMBER _ n => (toString n).toList
  | Token.STRING _ lit => lit
  | Token.EOL _ => []
  | Token.EOF _ => []

/-- Token::get_number: succeeds only on the number variant. -/
def Token.get_number : Token → Except String Int
  | Token.NUMBER _ n => Except.ok n
  | _ => Except.error "It's not a number token!"

/-- IdToken::new. -/
def IdToken_new (line_number : Nat) (id : List Char) : Token :=
  Token.IDENTIFIER line_number id

/-- NumberToken::new. -/
def NumberToken_new (line_number : Nat) (number : Int) : Token :=
  Token.NUMBER line_number number

/-- StringToken::new: stores the matched lexeme with the first and last
character (the two outer quotes) removed, nothing else changed. -/
def StringToken_new (line_number : Nat) (text : List Char) : Token :=
  Token.STRING line_number ((text.drop 1).dropLast)

/-- EolToken::new. -/
def EolToken_new (line_number : Nat) : Token :=
  Token.EOL line_number

/-- EofToken::new. -/
def EofToken_new (line_number : Nat) : Token :=
  Token.EOF line_number

/-- Boolean test for the end-of-line category. -/
def isEolTok (t : Token) : Bool := t.get_category == Category.EOL

/-- Boolean test for the end-of-input category. -/
def isEofTok (t : Token) : Bool := t.get_category == Category.EOF

/-- The tree container of ast.rs: enum ASTree, a LEAF wrapping one token or a
LIST owning an ordered sequence of tokens (the token-list variant of the
container observed in this repository). -/
inductive ASTree where
  | LEAF (token : Token)
  | LIST (token_list : List Token)
deriving DecidableEq

/-- ASTree::child: a LEAF answers the out-of-bounds error for every index; a
LIST answers the i-th stored token, or the out-of-bounds error past the end
(iter().nth(i).ok_or of the source). -/
def ASTree.child : ASTree → Nat → Except String Token
  | ASTree.LEAF _, _ => Except.error "Out of bounds!"
  | ASTree.LIST token_list, i =>
    match token_list[i]? with
    | some t => Except.ok t
    | none => Except.error "Out of bounds!"

/-- ASTree::children_number. -/
def ASTree.children_number : ASTree → Nat
  | ASTree.LEAF _ => 0
  | ASTree.LIST token_list => token_list.length

/-- ASTree::get_location_from_token. -/
def ASTree.get_location_from_token (t : Token) : String :=
  "at line: " ++ toString t.get_line_number

/-- ASTree::location.  The source returns a String and calls unwrap on
iter().nth(0) for the LIST variant; the unwrap aborts on an empty list, which
the embedding represents as the result none. -/
def ASTree.location : ASTree → Option String
  | ASTree.LEAF token => some (ASTree.get_location_from_token token)
  | ASTree.LIST token_list =>
    (token_list.head?).map ASTree.get_location_from_token

/-- The cursor state of ASTreeIter (the tree reference is passed separately). -/
structure ASTreeIter where
  index : Nat
deriving DecidableEq

/-- ASTreeIter::next: on a LEAF it yields nothing and leaves the cursor alone;
on a LIST it advances the cursor and yields child(old index).ok(). -/
def ASTreeIter.next (value : ASTree) (it : ASTreeIter) : Option Token × ASTreeIter :=
  match value with
  | ASTree.LEAF _ => (none, it)
  | ASTree.LIST _ => ((value.child it.index).toOption, ⟨it.index + 1⟩)

/-- Cursor state after k calls of next, starting from the fresh iterator that
ASTree::children returns (index 0). -/
def iterState (value : ASTree) : Nat → ASTreeIter
  | 0 => ⟨0⟩
  | k + 1 => (ASTreeIter.next value (iterState value k)).2

/-- The item produced by the (k+1)-st call of next on the iterator of a node
(0-based: iterOutput value 0 is what the first call of next yields). -/
def iterOutput (value : ASTree) (k : Nat) : Option Token :=
  (ASTreeIter.next value (iterState value k)).1

/-- The error text EOF_ERR_STR of lexer.rs. -/
def EOF_ERR_STR : String := "Already reach EOF!"

/-- Lexer state: the has_more flag, the FIFO token queue, the 0-based line
counter, and the remaining lines of the underlying reader. -/
structure LexerState where
  has_more : Bool
  token_queue : List Token
  line_number : Nat
  input : List (List Char)
deriving DecidableEq

/-- Lexer::new over a reader that will yield the given lines. -/
def initLexer (ls : List (List Char)) : LexerState :=
  { has_more := true, token_queue := [], line_number := 0, input := ls }

/-- parse::<i32> applied to a nonempty run of decimal digits (the only shape
the numeric alternative can hand it): the value if it fits into a 32-bit
signed integer, the overflow message of ParseIntError otherwise. -/
def parse_i32 (ds : List Char) : Except String Int :=
  if digitsVal ds ≤ 2147483647 then Except.ok (Int.ofNat (digitsVal ds))
  else Except.error "number too large to fit in target type"

/-- The two-character operator alternatives of the pattern, applied to the
current character and the rest of the line. -/
def twoCharOp (c : Char) (rest : List Char) : Option (List Char × List Char) :=
  match rest with
  | [] => none
  | c2 :: r =>
    if (c = '=' ∧ c2 = '=') ∨ (c = '<' ∧ c2 = '=') ∨ (c = '>' ∧ c2 = '=') ∨
       (c = '&' ∧ c2 = '&') ∨ (c = '|' ∧ c2 = '|')
    then some ([c, c2], r) else none

/-- Body of a string literal after the opening quote, under the preference
semantics of the star over the escaped-quote, escaped-backslash, escaped-n and
any-non-quote alternatives: the escape pairs are consumed greedily, a bare
quote closes the literal, and when the greedy run falls off the end of the
line the most recent escaped-quote pair is reconsidered as a backslash
character followed by a closing quote.  Returns the consumed body including
the closing quote, together with the rest of the line, or none when no parse
with a closing quote exists (the whole string alternative then fails). -/
def scanBody : List Char → Option (List Char × List Char)
  | [] => none
  | '\\' :: '"' :: rest =>
    match scanBody rest with
    | some (tl, r) => some ('\\' :: '"' :: tl, r)
    | none => some (['\\', '"'], rest)
  | '\\' :: '\\' :: rest =>
    match scanBody rest with
    | some (tl, r) => some ('\\' :: '\\' :: tl, r)
    | none => none
  | '\\' :: 'n' :: rest =>
    match scanBody rest with
    | some (tl, r) => some ('\\' :: 'n' :: tl, r)
    | none => none
  | '"' :: rest => some (['"'], rest)
  | c :: rest =>
    match scanBody rest with
    | some (tl, r) => some (c :: tl, r)
    | none => none

/-- Outcome of one match attempt of the composite pattern at the current scan
position of a line. -/
inductive ScanStep where
  /-- The loop of read_line breaks: only whitespace or nothing matched, or a
  comment was recognized. -/
  | stop
  /-- A token was produced; scanning continues on the rest of the line. -/
  | tok (t : Token) (rest : List Char)
  /-- The numeric literal failed to parse; the whole line scan fails. -/
  | err (e : String)
deriving DecidableEq

/-- One match attempt of TOKEN_REG_STR at the current position: skip leading
whitespace, then try the alternatives in their order in the pattern — line
comment, digit run, string literal, identifier, two-character operator,
single punctuation character.  When the optional group matches nothing (end
of line, pure-whitespace remainder, or an unrecognized character) the loop of
read_line breaks, which stop records; a comment also breaks it. -/
def scanOne (ln : Nat) (cs : List Char) : ScanStep :=
  match cs.dropWhile isWs with
  | [] => ScanStep.stop
  | c :: rest =>
    if c = '/' ∧ rest.head? = some '/' then ScanStep.stop
    else if isDigit c then
      match parse_i32 (c :: rest.takeWhile isDigit) with
      | Except.ok n => ScanStep.tok (NumberToken_new ln n) (rest.dropWhile isDigit)
      | Except.error e => ScanStep.err e
    else if c = '"' then
      match scanBody rest with
      | some (cwc, r) => ScanStep.tok (StringToken_new ln ('"' :: cwc)) r
      | none => ScanStep.tok (IdToken_new ln [c]) rest
    else if isIdStart c then
      ScanStep.tok (IdToken_new ln (c :: rest.takeWhile isIdChar)) (rest.dropWhile isIdChar)
    else
      match twoCharOp c rest with
      | some (op, r) => ScanStep.tok (IdToken_new ln op) r
      | none =>
        if isPunct c then ScanStep.tok (IdToken_new ln [c]) rest
        else ScanStep.stop

/-- The captures_iter loop of read_line with an explicit recursion bound:
tokens pushed so far are returned together with the numeric parse error, if
one aborted the line (the tokens produced before the failure are kept, as in
the source, where they were already pushed onto the queue). -/
def scanTokensFuel : Nat → Nat → List Char → List Token × Option String
  | 0, _, _ => ([], none)
  | fuel + 1, ln, cs =>
    match scanOne ln cs with
    | ScanStep.stop => ([], none)
    | ScanStep.err e => ([], some e)
    | ScanStep.tok t rest =>
      let p := scanTokensFuel fuel ln rest
      (t :: p.1, p.2)

/-- The token sequence (and possible numeric parse error) of one line scan.
Every produced token consumes at least one character, so length + 1 rounds of
the loop always suffice (theorem scanTokensFuel_adequate below). -/
def scanTokens (ln : Nat) (cs : List Char) : List Token × Option String :=
  scanTokensFuel (cs.length + 1) ln cs

/-- Lexer::read_line: on an exhausted reader, clear has_more and append one
end-of-input token carrying the current (not incremented) line counter;
otherwise increment the line counter, scan the line, append the scanned
tokens, and append one end-of-line token unless the scan failed, in which
case the error is propagated with the partial tokens already appended. -/
def read_line (s : LexerState) : LexerState × Option String :=
  match s.input with
  | [] =>
    ({ s with has_more := false,
              token_queue := s.token_queue ++ [EofToken_new s.line_number] }, none)
  | line :: rest =>
    match scanTokens (s.line_number + 1) line with
    | (ts, some e) =>
      ({ s with line_number := s.line_number + 1, input := rest,
                token_queue := s.token_queue ++ ts }, some e)
    | (ts, none) =>
      ({ s with line_number := s.line_number + 1, input := rest,
                token_queue := s.token_queue ++ ts ++
                  [EolToken_new (s.line_number + 1)] }, none)

/-- The while loop of Lexer::fill_queue with an explicit recursion bound:
while the queue does not reach offset i, pull another line if the reader may
still have one, propagating a scan error; report false when the reader is
exhausted first, true when the queue is long enough. -/
def fillFuel : Nat → LexerState → Nat → Except String Bool × LexerState
  | 0, s, _ => (Except.ok false, s)
  | fuel + 1, s, i =>
    if i < s.token_queue.length then (Except.ok true, s)
    else if s.has_more then
      match read_line s with
      | (s', some e) => (Except.error e, s')
      | (s', none) => fillFuel fuel s' i
    else (Except.ok false, s)

/-- Lexer::fill_queue.  Each successful round of the loop either consumes one
line of input or clears has_more with the input already empty, after which the
next round returns; hence input length + 2 rounds always suffice (behavior
lemmas fill_queue_lt, fill_queue_exhausted, fill_queue_step below). -/
def fill_queue (s : LexerState) (i : Nat) : Except String Bool × LexerState :=
  fillFuel (s.input.length + 2) s i

/-- Lexer::read: ensure at least one token is queued, then pop the front;
when the filling reports that the source is exhausted and nothing is queued,
fail with EOF_ERR_STR. -/
def read (s : LexerState) : Except String Token × LexerState :=
  match fill_queue s 0 with
  | (Except.error e, s') => (Except.error e, s')
  | (Except.ok true, s') =>
    match s'.token_queue with
    | [] => (Except.error "", s')
    | t :: rest => (Except.ok t, { s' with token_queue := rest })
  | (Except.ok false, s') => (Except.error EOF_ERR_STR, s')

/-- Lexer::peek: fill up to offset i and return the token there without
removing anything; fail with EOF_ERR_STR when the offset is not reachable. -/
def peek (s : LexerState) (i : Nat) : Except String Token × LexerState :=
  match fill_queue s i with
  | (Except.error e, s') => (Except.error e, s')
  | (Except.ok r, s') =>
    match r, s'.token_queue[i]? with
    | true, some t => (Except.ok t, s')
    | _, _ => (Except.error EOF_ERR_STR, s')

/-- Cost of the remaining input for the running-time bound of repeated reads:
a line of n characters can contribute at most n tokens plus one end-of-line
token, and consuming it always costs one call. -/
def inputCost (ls : List (List Char)) : Nat :=
  (ls.map (fun l => l.length + 2)).sum

/-- Upper bound on how many successful read calls a state still admits. -/
def readBound (s : LexerState) : Nat :=
  s.token_queue.length + inputCost s.input + (if s.has_more then 1 else 0)

/-- The sequence of tokens delivered by successive read calls, stopping at the
first error, observed up to the given number of calls. -/
def drainFuel : Nat → LexerState → List Token
  | 0, _ => []
  | fuel + 1, s =>
    match read s with
    | (Except.ok t, s') => t :: drainFuel fuel s'
    | (Except.error _, _) => []

/-- All tokens successive read calls ever deliver from a state: readBound
bounds the number of successful reads (theorem drainFuel_spec below shows the
bound is reached exactly at exhaustion for clean inputs). -/
def drain (s : LexerState) : List Token :=
  drainFuel (readBound s) s

/-- The token stream the lexer still owes when its queue is empty and the
reader holds the given lines, with the line counter at n: for each line its
scanned tokens and one end-of-line token, then the single end-of-input
token carrying the final line counter. -/
def streamFrom (n : Nat) : List (List Char) → List Token
  | [] => [EofToken_new n]
  | l :: ls =>
    (scanTokens (n + 1) l).1 ++ EolToken_new (n + 1) :: streamFrom (n + 1) ls

/-- Tokens a state still owes beyond its queue: nothing once has_more is
cleared, the pending stream of its input otherwise. -/
def pendingStream (s : LexerState) : List Token :=
  if s.has_more then streamFrom s.line_number s.input else []

/-- A well-formed input: no line of it aborts its scan with a numeric parse
error, when the lines are numbered consecutively starting after n. -/
def wfInput (n : Nat) : List (List Char) → Prop
  | [] => True
  | l :: ls => (scanTokens (n + 1) l).2 = none ∧ wfInput (n + 1) ls

deriving instance DecidableEq for Except

theorem scanBody_spec :
    ∀ (l p r : List Char), scanBody l = some (p, r) →
      ∃ mid, p = mid ++ ['"'] ∧ l = mid ++ '"' :: r := by
  intro l
  induction l using scanBody.induct with
  | case1 =>
    intro p r h
    simp [scanBody] at h
  | case2 rest tl r0 hrec ih =>
    intro p r h
    simp only [scanBody, hrec, Option.some.injEq, Prod.mk.injEq] at h
    obtain ⟨h1, h2⟩ := h
    subst h1; subst h2
    obtain ⟨mid, hm1, hm2⟩ := ih tl r0 hrec
    exact ⟨'\\' :: '"' :: mid, by simp [hm1], by simp [hm2]⟩
  | case3 rest hrec ih =>
    intro p r h
    simp only [scanBody, hrec, Option.some.injEq, Prod.mk.injEq] at h
    obtain ⟨h1, h2⟩ := h
    subst h1; subst h2
    exact ⟨['\\'], rfl, rfl⟩
  | case4 rest tl r0 hrec ih =>
    intro p r h
    simp only [scanBody, hrec, Option.some.injEq, Prod.mk.injEq] at h
    obtain ⟨h1, h2⟩ := h
    subst h1; subst h2
    obtain ⟨mid, hm1, hm2⟩ := ih tl r0 hrec
    exact ⟨'\\' :: '\\' :: mid, by simp [hm1], by simp [hm2]⟩
  | case5 rest hrec ih =>
    intro p r h
    simp only [scanBody, hrec] at h
    exact Option.noConfusion h
  | case6 rest tl r0 hrec ih =>
    intro p r h
    simp only [scanBody, hrec, Option.some.injEq, Prod.mk.injEq] at h
    obtain ⟨h1, h2⟩ := h
    subst h1; subst h2
    obtain ⟨mid, hm1, hm2⟩ := ih tl r0 hrec
    exact ⟨'\\' :: 'n' :: mid, by simp [hm1], by simp [hm2]⟩
  | case7 rest hrec ih =>
    intro p r h
    simp only [scanBody, hrec] at h
    exact Option.noConfusion h
  | case8 rest =>
    intro p r h
    simp only [scanBody, Option.some.injEq, Prod.mk.injEq] at h
    obtain ⟨h1, h2⟩ := h
    subst h1; subst h2
    exact ⟨[], rfl, rfl⟩
  | case9 c rest hn1 hn2 hn3 hn4 tl r0 hrec ih =>
    intro p r h
    rw [scanBody.eq_6 c rest hn1 hn2 hn3 hn4, hrec] at h
    simp only [Option.some.injEq, Prod.mk.injEq] at h
    obtain ⟨h1, h2⟩ := h
    subst h1; subst h2
    obtain ⟨mid, hm1, hm2⟩ := ih tl r0 hrec
    exact ⟨c :: mid, by simp [hm1], by simp [hm2]⟩
  | case10 c rest hn1 hn2 hn3 hn4 hrec ih =>
    intro p r h
    rw [scanBody.eq_6 c rest hn1 hn2 hn3 hn4, hrec] at h
    exact Option.noConfusion h

theorem twoCharOp_some (c : Char) (rest op r : List Char)
    (h : twoCharOp c rest = some (op, r)) : ∃ c2, rest = c2 :: r := by
  rcases rest with _ | ⟨c2, rr⟩
  · simp [twoCharOp] at h
  · simp only [twoCharOp] at h
    split at h
    · simp only [Option.some.injEq, Prod.mk.injEq] at h
      exact ⟨c2, by rw [h.2]⟩
    · exact Option.noConfusion h

theorem twoCharOp_none_of_not_punct (c : Char) (rest : List Char)
    (h : isPunct c = false) : twoCharOp c rest = none := by
  rcases rest with _ | ⟨c2, rr⟩
  · rfl
  · simp only [twoCharOp]
    rw [if_neg]
    rintro (⟨rfl, -⟩ | ⟨rfl, -⟩ | ⟨rfl, -⟩ | ⟨rfl, -⟩ | ⟨rfl, -⟩) <;>
      exact absurd h (by decide)

theorem scanOne_tok_props (ln : Nat) (cs : List Char) (t : Token) (rest : List Char)
    (h : scanOne ln cs = ScanStep.tok t rest) :
    rest.length < cs.length ∧ isEolTok t = false ∧ isEofTok t = false := by
  have hsub : (cs.dropWhile isWs).length ≤ cs.length :=
    (List.dropWhile_sublist isWs).length_le
  rcases hdw : cs.dropWhile isWs with _ | ⟨c, cr⟩
  · simp only [scanOne, hdw] at h
    exact ScanStep.noConfusion h
  · have hsub2 : cr.length + 1 ≤ cs.length := by
      rw [hdw] at hsub; simpa using hsub
    simp only [scanOne, hdw] at h
    by_cases h1 : c = '/' ∧ cr.head? = some '/'
    · rw [if_pos h1] at h; exact ScanStep.noConfusion h
    rw [if_neg h1] at h
    by_cases h2 : isDigit c = true
    · rw [if_pos h2] at h
      rcases hp : parse_i32 (c :: cr.takeWhile isDigit) with e | n <;>
        simp only [hp] at h
      · exact ScanStep.noConfusion h
      · cases h
        refine ⟨?_, rfl, rfl⟩
        have hdp : (cr.dropWhile isDigit).length ≤ cr.length :=
          (List.dropWhile_sublist isDigit).length_le
        omega
    rw [if_neg h2] at h
    by_cases h3 : c = '"'
    · rw [if_pos h3] at h
      rcases hsb : scanBody cr with _ | ⟨⟨cwc, r2⟩⟩ <;> simp only [hsb] at h
      · cases h
        exact ⟨by omega, rfl, rfl⟩
      · cases h
        obtain ⟨mid, hm1, hm2⟩ := scanBody_spec cr cwc _ hsb
        have hlen := congrArg List.length hm2
        simp [List.length_append] at hlen
        refine ⟨by omega, rfl, rfl⟩
    rw [if_neg h3] at h
    by_cases h4 : isIdStart c = true
    · rw [if_pos h4] at h
      cases h
      refine ⟨?_, rfl, rfl⟩
      have hdp : (cr.dropWhile isIdChar).length ≤ cr.length :=
        (List.dropWhile_sublist isIdChar).length_le
      omega
    rw [if_neg h4] at h
    rcases h5 : twoCharOp c cr with _ | ⟨⟨op, r2⟩⟩ <;> simp only [h5] at h
    · by_cases h6 : isPunct c = true
      · rw [if_pos h6] at h
        cases h
        exact ⟨by omega, rfl, rfl⟩
      · rw [if_neg h6] at h
        exact ScanStep.noConfusion h
    · cases h
      obtain ⟨c2, hc2⟩ := twoCharOp_some c cr op _ h5
      have hcrl := congrArg List.length hc2
      simp only [List.length_cons] at hcrl
      exact ⟨by omega, rfl, rfl⟩

theorem scanTokensFuel_adequate :
    ∀ (f1 f2 ln : Nat) (cs : List Char), cs.length < f1 → cs.length < f2 →
      scanTokensFuel f1 ln cs = scanTokensFuel f2 ln cs := by
  intro f1
  induction f1 with
  | zero => intro f2 ln cs h1 h2; omega
  | succ f ih =>
    intro f2 ln cs h1 h2
    rcases f2 with _ | g2
    · omega
    · rcases hs : scanOne ln cs with _ | ⟨t, rest⟩ | e <;>
        simp only [scanTokensFuel, hs]
      have hlt := (scanOne_tok_props ln cs t rest hs).1
      rw [ih g2 ln rest (by omega) (by omega)]

theorem scanTokens_stop (ln : Nat) (cs : List Char)
    (h : scanOne ln cs = ScanStep.stop) : scanTokens ln cs = ([], none) := by
  simp only [scanTokens, scanTokensFuel, h]

theorem scanTokens_err (ln : Nat) (cs : List Char) (e : String)
    (h : scanOne ln cs = ScanStep.err e) : scanTokens ln cs = ([], some e) := by
  simp only [scanTokens, scanTokensFuel, h]

theorem scanTokens_tok (ln : Nat) (cs : List Char) (t : Token) (rest : List Char)
    (h : scanOne ln cs = ScanStep.tok t rest) :
    scanTokens ln cs = (t :: (scanTokens ln rest).1, (scanTokens ln rest).2) := by
  have hlt := (scanOne_tok_props ln cs t rest h).1
  calc scanTokensFuel (cs.length + 1) ln cs
      = (t :: (scanTokensFuel cs.length ln rest).1,
          (scanTokensFuel cs.length ln rest).2) := by
        simp only [scanTokensFuel, h]
    _ = (t :: (scanTokens ln rest).1, (scanTokens ln rest).2) := by
        rw [show scanTokensFuel cs.length ln rest = scanTokens ln rest from
          scanTokensFuel_adequate cs.length (rest.length + 1) ln rest (by omega) (by omega)]

theorem scanTokens_length :
    ∀ (n ln : Nat) (cs : List Char), cs.length ≤ n →
      (scanTokens ln cs).1.length ≤ cs.length := by
  intro n
  induction n with
  | zero =>
    intro ln cs hn
    have hcs : cs = [] := List.length_eq_zero.mp (by omega)
    subst hcs
    rw [scanTokens_stop ln [] (by simp [scanOne])]
    simp
  | succ n ih =>
    intro ln cs hn
    rcases hs : scanOne ln cs with _ | ⟨t, rest⟩ | e
    · rw [scanTokens_stop ln cs hs]; simp
    · have hlt := (scanOne_tok_props ln cs t rest hs).1
      rw [scanTokens_tok ln cs t rest hs]
      have := ih ln rest (by omega)
      simp only [List.length_cons]
      omega
    · rw [scanTokens_err ln cs e hs]; simp

theorem scanTokensFuel_no_eol :
    ∀ (f ln : Nat) (cs : List Char) (t : Token),
      t ∈ (scanTokensFuel f ln cs).1 → isEolTok t = false ∧ isEofTok t = false := by
  intro f
  induction f with
  | zero => intro ln cs t ht; simp [scanTokensFuel] at ht
  | succ f ih =>
    intro ln cs t ht
    rcases hs : scanOne ln cs with _ | ⟨t', rest⟩ | e <;>
      simp only [scanTokensFuel, hs] at ht
    · simp at ht
    · rcases List.mem_cons.mp ht with rfl | hmem
      · exact (scanOne_tok_props ln cs t rest hs).2
      · exact ih ln rest t hmem
    · simp at ht

theorem scanTokens_no_eol (ln : Nat) (cs : List Char) (t : Token)
    (ht : t ∈ (scanTokens ln cs).1) : isEolTok t = false ∧ isEofTok t = false :=
  scanTokensFuel_no_eol (cs.length + 1) ln cs t ht

theorem fillFuel_done (f : Nat) (s : LexerState) (i : Nat) (hf : 0 < f)
    (h : i < s.token_queue.length) : fillFuel f s i = (Except.ok true, s) := by
  rcases f with _ | f
  · omega
  · simp only [fillFuel, if_pos h]

theorem fillFuel_no_more_any (f : Nat) (s : LexerState) (i : Nat) (hf : 0 < f)
    (hm : s.has_more = false) :
    fillFuel f s i = (if i < s.token_queue.length then (Except.ok true, s)
                      else (Except.ok false, s)) := by
  rcases f with _ | f
  · omega
  · by_cases hq : i < s.token_queue.length <;> simp [fillFuel, hm, hq]

theorem fillFuel_step (f : Nat) (s : LexerState) (i : Nat)
    (h : ¬ i < s.token_queue.length) (hm : s.has_more = true) :
    fillFuel (f + 1) s i =
      match read_line s with
      | (s', some e) => (Except.error e, s')
      | (s', none) => fillFuel f s' i := by
  conv_lhs => rw [fillFuel]
  rw [if_neg h, if_pos hm]

theorem fill_queue_lt (s : LexerState) (i : Nat) (h : i < s.token_queue.length) :
    fill_queue s i = (Except.ok true, s) :=
  fillFuel_done _ s i (by omega) h

theorem fill_queue_exhausted (s : LexerState) (i : Nat)
    (h : ¬ i < s.token_queue.length) (hm : s.has_more = false) :
    fill_queue s i = (Except.ok false, s) := by
  rw [fill_queue, fillFuel_no_more_any _ s i (by omega) hm, if_neg h]

theorem read_line_cons (s : LexerState) (l : List Char) (ls : List (List Char))
    (hin : s.input = l :: ls) :
    read_line s =
      (match scanTokens (s.line_number + 1) l with
       | (ts, some e) =>
         ({ s with line_number := s.line_number + 1, input := ls,
                   token_queue := s.token_queue ++ ts }, some e)
       | (ts, none) =>
         ({ s with line_number := s.line_number + 1, input := ls,
                   token_queue := s.token_queue ++ ts ++
                     [EolToken_new (s.line_number + 1)] }, none)) := by
  simp only [read_line, hin]

theorem read_line_nil (s : LexerState) (hin : s.input = []) :
    read_line s =
      ({ s with has_more := false,
                token_queue := s.token_queue ++ [EofToken_new s.line_number] },
       none) := by
  simp only [read_line, hin]

theorem fill_queue_step (s : LexerState) (i : Nat)
    (h : ¬ i < s.token_queue.length) (hm : s.has_more = true) :
    fill_queue s i =
      match read_line s with
      | (s', some e) => (Except.error e, s')
      | (s', none) => fill_queue s' i := by
  have h0 : fill_queue s i = fillFuel (s.input.length + 1 + 1) s i := rfl
  rw [h0, fillFuel_step (s.input.length + 1) s i h hm]
  rcases hin : s.input with _ | ⟨l, ls⟩
  · rw [read_line_nil s hin]
    show fillFuel 1
        ({ s with has_more := false,
                  token_queue := s.token_queue ++ [EofToken_new s.line_number] }) i =
      fill_queue
        ({ s with has_more := false,
                  token_queue := s.token_queue ++ [EofToken_new s.line_number] }) i
    rw [fill_queue]
    rw [fillFuel_no_more_any _ _ i (by omega) rfl,
        fillFuel_no_more_any _ _ i (by omega) rfl]
  · rcases hscan : scanTokens (s.line_number + 1) l with ⟨ts, err⟩
    rcases err with _ | e
    · have hrl : read_line s =
          ({ s with line_number := s.line_number + 1, input := ls,
                    token_queue := s.token_queue ++ ts ++
                      [EolToken_new (s.line_number + 1)] }, none) := by
        rw [read_line_cons s l ls hin, hscan]
      rw [hrl]
      rfl
    · have hrl : read_line s =
          ({ s with line_number := s.line_number + 1, input := ls,
                    token_queue := s.token_queue ++ ts }, some e) := by
        rw [read_line_cons s l ls hin, hscan]
      rw [hrl]

theorem read_cons (s : LexerState) (t : Token) (rest : List Token)
    (hq : s.token_queue = t :: rest) :
    read s = (Except.ok t, { s with token_queue := rest }) := by
  have h1 := fill_queue_lt s 0 (by rw [hq]; simp)
  simp only [read, h1, hq]

theorem read_exhausted (s : LexerState) (hq : s.token_queue = [])
    (hm : s.has_more = false) :
    read s = (Except.error EOF_ERR_STR, s) := by
  have h1 := fill_queue_exhausted s 0 (by rw [hq]; simp) hm
  simp only [read, h1]

theorem read_eof_line (s : LexerState) (hq : s.token_queue = [])
    (hm : s.has_more = true) (hin : s.input = []) :
    read s = (Except.ok (EofToken_new s.line_number),
      { s with has_more := false, token_queue := [] }) := by
  have hfq : fill_queue s 0 = (Except.ok true,
      { s with has_more := false,
               token_queue := s.token_queue ++ [EofToken_new s.line_number] }) := by
    rw [fill_queue_step s 0 (by rw [hq]; simp) hm, read_line_nil s hin]
    exact fill_queue_lt _ 0 (by simp)
  simp only [read, hfq, hq, List.nil_append]

theorem read_scan_ok (s : LexerState) (l : List Char) (ls : List (List Char))
    (ts : List Token) (t : Token) (q : List Token)
    (hq : s.token_queue = []) (hm : s.has_more = true) (hin : s.input = l :: ls)
    (hscan : scanTokens (s.line_number + 1) l = (ts, none))
    (hc : ts ++ [EolToken_new (s.line_number + 1)] = t :: q) :
    read s = (Except.ok t,
      { s with line_number := s.line_number + 1, input := ls, token_queue := q }) := by
  have hrl : read_line s =
      ({ s with line_number := s.line_number + 1, input := ls,
                token_queue := s.token_queue ++ ts ++
                  [EolToken_new (s.line_number + 1)] }, none) := by
    rw [read_line_cons s l ls hin, hscan]
  have hfq : fill_queue s 0 = (Except.ok true,
      { s with line_number := s.line_number + 1, input := ls,
               token_queue := s.token_queue ++ ts ++
                 [EolToken_new (s.line_number + 1)] }) := by
    rw [fill_queue_step s 0 (by rw [hq]; simp) hm, hrl]
    exact fill_queue_lt _ 0 (by simp)
  simp only [read, hfq, hq, List.nil_append, hc]

theorem read_scan_err (s : LexerState) (l : List Char) (ls : List (List Char))
    (ts : List Token) (e : String)
    (hq : s.token_queue = []) (hm : s.has_more = true) (hin : s.input = l :: ls)
    (hscan : scanTokens (s.line_number + 1) l = (ts, some e)) :
    read s = (Except.error e,
      { s with line_number := s.line_number + 1, input := ls,
               token_queue := s.token_queue ++ ts }) := by
  have hrl : read_line s =
      ({ s with line_number := s.line_number + 1, input := ls,
                token_queue := s.token_queue ++ ts }, some e) := by
    rw [read_line_cons s l ls hin, hscan]
  have hfq : fill_queue s 0 = (Except.error e,
      { s with line_number := s.line_number + 1, input := ls,
               token_queue := s.token_queue ++ ts }) := by
    rw [fill_queue_step s 0 (by rw [hq]; simp) hm, hrl]
  simp only [read, hfq]

theorem peek_scan_err (s : LexerState) (l : List Char) (ls : List (List Char))
    (ts : List Token) (e : String) (i : Nat)
    (hq : s.token_queue = []) (hm : s.has_more = true) (hin : s.input = l :: ls)
    (hscan : scanTokens (s.line_number + 1) l = (ts, some e)) :
    (peek s i).1 = Except.error e := by
  have hrl : read_line s =
      ({ s with line_number := s.line_number + 1, input := ls,
                token_queue := s.token_queue ++ ts }, some e) := by
    rw [read_line_cons s l ls hin, hscan]
  have hfq : fill_queue s i = (Except.error e,
      { s with line_number := s.line_number + 1, input := ls,
               token_queue := s.token_queue ++ ts }) := by
    rw [fill_queue_step s i (by rw [hq]; simp) hm, hrl]
  simp only [peek, hfq]

theorem peek_scan_err_state (s : LexerState) (l : List Char)
    (ls : List (List Char)) (ts : List Token) (e : String) (i : Nat)
    (hq : s.token_queue = []) (hm : s.has_more = true) (hin : s.input = l :: ls)
    (hscan : scanTokens (s.line_number + 1) l = (ts, some e)) :
    peek s i = (Except.error e,
      { s with line_number := s.line_number + 1, input := ls,
               token_queue := s.token_queue ++ ts }) := by
  have hrl : read_line s =
      ({ s with line_number := s.line_number + 1, input := ls,
                token_queue := s.token_queue ++ ts }, some e) := by
    rw [read_line_cons s l ls hin, hscan]
  have hfq : fill_queue s i = (Except.error e,
      { s with line_number := s.line_number + 1, input := ls,
               token_queue := s.token_queue ++ ts }) := by
    rw [fill_queue_step s i (by rw [hq]; simp) hm, hrl]
  simp only [peek, hfq]

theorem read_line_prefix (s : LexerState) :
    s.token_queue <+: ((read_line s).1).token_queue := by
  rcases hin : s.input with _ | ⟨l, ls⟩
  · rw [read_line_nil s hin]
    exact List.prefix_append _ _
  · rw [read_line_cons s l ls hin]
    rcases hscan : scanTokens (s.line_number + 1) l with ⟨ts, err⟩
    rcases err with _ | e <;> simp only []
    · exact ⟨ts ++ [EolToken_new (s.line_number + 1)], by simp⟩
    · exact List.prefix_append _ _

theorem fillFuel_prefix :
    ∀ (f : Nat) (s : LexerState) (i : Nat),
      s.token_queue <+: (fillFuel f s i).2.token_queue := by
  intro f
  induction f with
  | zero => intro s i; exact List.prefix_refl _
  | succ f ih =>
    intro s i
    by_cases hq : i < s.token_queue.length
    · rw [fillFuel_done (f + 1) s i (by omega) hq]
    · by_cases hm : s.has_more = true
      · rw [fillFuel_step f s i hq hm]
        rcases hrl : read_line s with ⟨s', err⟩
        have hpre : s.token_queue <+: s'.token_queue := by
          have h0 := read_line_prefix s
          rw [hrl] at h0
          exact h0
        rcases err with _ | e
        · exact hpre.trans (ih s' i)
        · exact hpre
      · rw [fillFuel_no_more_any (f + 1) s i (by omega) (by simpa using hm)]
        split <;> exact List.prefix_refl _

theorem fill_queue_prefix (s : LexerState) (i : Nat) :
    s.token_queue <+: (fill_queue s i).2.token_queue :=
  fillFuel_prefix _ s i

theorem peek_state (s : LexerState) (i : Nat) :
    (peek s i).2 = (fill_queue s i).2 := by
  unfold peek
  rcases hfj : fill_queue s i with ⟨rj, sj⟩
  rcases rj with e | b
  · simp
  · rcases b
    · simp
    · rcases hg : sj.token_queue[i]? with _ | tj <;> simp [hg]

theorem peek_ok (s : LexerState) (i : Nat) (t : Token) (s1 : LexerState)
    (h : peek s i = (Except.ok t, s1)) :
    fill_queue s i = (Except.ok true, s1) ∧ s1.token_queue[i]? = some t := by
  unfold peek at h
  rcases hf : fill_queue s i with ⟨r, s'⟩
  rw [hf] at h
  rcases r with e | b
  · simp at h
  · rcases b
    · simp at h
    · rcases hget : s'.token_queue[i]? with _ | t'
      · simp [hget] at h
      · simp only [hget, Prod.mk.injEq, Except.ok.injEq] at h
        obtain ⟨rfl, rfl⟩ := h
        exact ⟨rfl, hget⟩

theorem wfInput_nil (n : Nat) : wfInput n [] := trivial

theorem wfInput_cons (n : Nat) (l : List Char) (ls : List (List Char)) :
    wfInput n (l :: ls) ↔
      (scanTokens (n + 1) l).2 = none ∧ wfInput (n + 1) ls :=
  Iff.rfl

theorem drainFuel_spec :
    ∀ (n : Nat) (s : LexerState), readBound s ≤ n →
      wfInput s.line_number s.input →
      drainFuel n s = s.token_queue ++ pendingStream s := by
  intro n
  induction n with
  | zero =>
    intro s hb hwf
    unfold readBound at hb
    have hq : s.token_queue = [] := List.length_eq_zero.mp (by omega)
    have hm : s.has_more = false := by
      rcases hsm : s.has_more
      · rfl
      · rw [hsm] at hb; simp at hb
    simp [drainFuel, pendingStream, hm, hq]
  | succ n ih =>
    intro s hb hwf
    rcases hq : s.token_queue with _ | ⟨t, q⟩
    · rcases hsm : s.has_more
      · simp only [drainFuel, read_exhausted s hq hsm]
        simp [pendingStream, hsm, hq]
      · rcases hin : s.input with _ | ⟨l, ls⟩
        · simp only [drainFuel, read_eof_line s hq hsm hin]
          have hb' : readBound { s with has_more := false, token_queue := [] } ≤ n := by
            unfold readBound at hb ⊢
            simp only [hq, hsm, hin] at hb
            simp only [inputCost] at hb ⊢
            simp [hin] at hb ⊢
          rw [ih _ hb' (by simpa using hwf)]
          simp [pendingStream, hq, hsm, hin, streamFrom]
        · rw [hin] at hwf
          obtain ⟨hw1, hw2⟩ := (wfInput_cons s.line_number l ls).mp hwf
          rcases hscan : scanTokens (s.line_number + 1) l with ⟨ts, err⟩
          have herr : err = none := by
            rw [hscan] at hw1; exact hw1
          subst herr
          obtain ⟨t0, q0, hc⟩ :
              ∃ t0 q0, ts ++ [EolToken_new (s.line_number + 1)] = t0 :: q0 := by
            rcases ts with _ | ⟨a, b⟩ <;> exact ⟨_, _, rfl⟩
          simp only [drainFuel, read_scan_ok s l ls ts t0 q0 hq hsm hin hscan hc]
          have hlen : ts.length ≤ l.length := by
            have h0 := scanTokens_length l.length (s.line_number + 1) l le_rfl
            rw [hscan] at h0; exact h0
          have hq0 : q0.length = ts.length := by
            have h1 := congrArg List.length hc
            simp at h1
            omega
          have hb' : readBound { s with line_number := s.line_number + 1, input := ls, token_queue := q0 } ≤ n := by
            unfold readBound inputCost at hb ⊢
            simp only [hq, hsm, hin, List.map_cons, List.sum_cons,
              List.length_nil, if_pos] at hb ⊢
            simp at hb ⊢
            omega
          rw [ih _ hb' hw2]
          simp only [pendingStream, hq, hsm, hin, if_pos]
          rw [streamFrom, hscan]
          show (t0 :: q0) ++ streamFrom (s.line_number + 1) ls = _
          rw [← hc]
          simp
    · simp only [drainFuel, read_cons s t q hq]
      have hb' : readBound ({ s with token_queue := q }) ≤ n := by
        unfold readBound at hb ⊢
        rw [hq] at hb
        simp only [List.length_cons] at hb
        dsimp only
        omega
      rw [ih _ hb' hwf]
      dsimp only [pendingStream]
      rw [List.cons_append]

theorem drain_spec (s : LexerState) (hwf : wfInput s.line_number s.input) :
    drain s = s.token_queue ++ pendingStream s :=
  drainFuel_spec (readBound s) s le_rfl hwf

theorem streamFrom_countP_eol :
    ∀ (ls : List (List Char)) (n : Nat),
      (streamFrom n ls).countP isEolTok = ls.length := by
  intro ls
  induction ls with
  | nil =>
    intro n
    simp [streamFrom, isEolTok, EofToken_new, Token.get_category]
  | cons l ls ih =>
    intro n
    simp only [streamFrom, List.countP_append, List.countP_cons]
    have h0 : (scanTokens (n + 1) l).1.countP isEolTok = 0 :=
      List.countP_eq_zero.mpr
        (fun t ht => by simp [(scanTokens_no_eol (n + 1) l t ht).1])
    rw [h0, ih (n + 1)]
    simp [isEolTok, EolToken_new, Token.get_category]

theorem streamFrom_countP_eof :
    ∀ (ls : List (List Char)) (n : Nat),
      (streamFrom n ls).countP isEofTok = 1 := by
  intro ls
  induction ls with
  | nil =>
    intro n
    simp [streamFrom, isEofTok, EofToken_new, Token.get_category]
  | cons l ls ih =>
    intro n
    simp only [streamFrom, List.countP_append, List.countP_cons]
    have h0 : (scanTokens (n + 1) l).1.countP isEofTok = 0 :=
      List.countP_eq_zero.mpr
        (fun t ht => by simp [(scanTokens_no_eol (n + 1) l t ht).2])
    rw [h0, ih (n + 1)]
    simp [isEofTok, EolToken_new, Token.get_category]

theorem streamFrom_concat :
    ∀ (ls : List (List Char)) (n : Nat),
      ∃ pre, streamFrom n ls = pre ++ [EofToken_new (n + ls.length)] := by
  intro ls
  induction ls with
  | nil =>
    intro n
    exact ⟨[], by simp [streamFrom]⟩
  | cons l ls ih =>
    intro n
    obtain ⟨pre, hp⟩ := ih (n + 1)
    refine ⟨(scanTokens (n + 1) l).1 ++ EolToken_new (n + 1) :: pre, ?_⟩
    rw [streamFrom, hp]
    have : n + 1 + ls.length = n + (l :: ls).length := by simp; omega
    rw [this]
    simp

/-- C3: for every well-formed input (no line fails its scan), the token
sequence delivered by successive read calls holds exactly one end-of-line
token per line read, exactly one end-of-input token, which is the last token
and carries the line counter at exhaustion (the number of lines read, 0 when
no line was ever read), with no end-of-line token appended at exhaustion; the
whole stream is the per-line scans each followed by its end-of-line token,
then the single end-of-input token. -/
theorem c3_eol_eoi_discipline (ls : List (List Char)) (hwf : wfInput 0 ls) :
    (drain (initLexer ls)).countP isEolTok = ls.length ∧
    (drain (initLexer ls)).countP isEofTok = 1 ∧
    (drain (initLexer ls)).getLast? = some (EofToken_new ls.length) ∧
    drain (initLexer ls) = streamFrom 0 ls := by
  have hd : drain (initLexer ls) = streamFrom 0 ls := by
    have h0 := drain_spec (initLexer ls) hwf
    simpa [initLexer, pendingStream] using h0
  refine ⟨?_, ?_, ?_, hd⟩ <;> rw [hd]
  · exact streamFrom_countP_eol ls 0
  · exact streamFrom_countP_eof ls 0
  · obtain ⟨pre, hp⟩ := streamFrom_concat ls 0
    rw [hp, List.getLast?_concat]
    simp

/-- C3 witness: a one-line input, with the conclusion evaluated. -/
theorem c3_eol_eoi_discipline_witness :
    wfInput 0 [['1']] ∧
    (drain (initLexer [['1']])).countP isEolTok = 1 ∧
    (drain (initLexer [['1']])).countP isEofTok = 1 ∧
    (drain (initLexer [['1']])).getLast? = some (EofToken_new 1) := by
  have hwf : wfInput 0 [['1']] := ⟨by decide, trivial⟩
  have hc := c3_eol_eoi_discipline [['1']] hwf
  exact ⟨hwf, hc.1, hc.2.1, hc.2.2.1⟩

/-- C4: for every tokenizer state, a successful peek(i) is repeatable: the
same call again returns the identical token value and leaves the state
unchanged; after a successful peek(0) the next read returns that same token;
and peek never removes a token from the queue — the original queue is a
prefix of the queue after the peek, indeed after any peek whatever its
outcome. -/
theorem c4_peek_idempotent_read_consistent (s : LexerState) (i : Nat)
    (t : Token) (s1 : LexerState) (h : peek s i = (Except.ok t, s1)) :
    peek s1 i = (Except.ok t, s1) ∧
    (i = 0 → (read s1).1 = Except.ok t) ∧
    s.token_queue <+: s1.token_queue ∧
    (∀ j : Nat, s.token_queue <+: (peek s j).2.token_queue) := by
  obtain ⟨hf, hget⟩ := peek_ok s i t s1 h
  have hlen : i < s1.token_queue.length := by
    by_contra hc
    rw [List.getElem?_eq_none_iff.mpr (by omega)] at hget
    exact Option.noConfusion hget
  refine ⟨?_, ?_, ?_, ?_⟩
  · unfold peek
    rw [fill_queue_lt s1 i hlen]
    simp only [hget]
  · intro hi
    subst hi
    rcases hq1 : s1.token_queue with _ | ⟨t0, q⟩
    · rw [hq1] at hget; simp at hget
    · have ht0 : t0 = t := by
        rw [hq1] at hget
        simpa using hget
      subst ht0
      rw [read_cons s1 t0 q hq1]
  · have h0 := fill_queue_prefix s i
    rw [hf] at h0
    exact h0
  · intro j
    rw [peek_state s j]
    exact fill_queue_prefix s j

/-- C4 witness: on the queue state reached from the one-line input 1, peek(0)
succeeds, repeats identically, and the next read returns the peeked token. -/
theorem c4_peek_idempotent_witness :
    peek { has_more := true, token_queue := [NumberToken_new 1 1, EolToken_new 1],
           line_number := 1, input := ([] : List (List Char)) } 0 =
      (Except.ok (NumberToken_new 1 1),
       { has_more := true, token_queue := [NumberToken_new 1 1, EolToken_new 1],
         line_number := 1, input := [] }) ∧
    (read { has_more := true, token_queue := [NumberToken_new 1 1, EolToken_new 1],
            line_number := 1, input := [] }).1 = Except.ok (NumberToken_new 1 1) := by
  have h : peek (initLexer [['1']]) 0 =
      (Except.ok (NumberToken_new 1 1),
       { has_more := true, token_queue := [NumberToken_new 1 1, EolToken_new 1],
         line_number := 1, input := [] }) := by decide
  have hc := c4_peek_idempotent_read_consistent _ 0 _ _ h
  exact ⟨hc.1, hc.2.1 rfl⟩

/-- C5: on an empty input source the first read returns the end-of-input
token at line 0 (leaving the exhausted state), and a read from the exhausted
state with an empty queue fails with EOF_ERR_STR and leaves the state
unchanged, so every subsequent read fails the same way. -/
theorem c5_empty_input_reads :
    read (initLexer []) = (Except.ok (EofToken_new 0),
      { has_more := false, token_queue := [], line_number := 0, input := [] }) ∧
    read { has_more := false, token_queue := [], line_number := 0, input := [] } =
      (Except.error EOF_ERR_STR,
       { has_more := false, token_queue := [], line_number := 0, input := [] }) :=
  ⟨by decide, by decide⟩

theorem takeWhile_all_append (p : Char → Bool) :
    ∀ (a b : List Char), (∀ c ∈ a, p c = true) →
      (∀ c, b.head? = some c → p c = false) →
      (a ++ b).takeWhile p = a ∧ (a ++ b).dropWhile p = b := by
  intro a
  induction a with
  | nil =>
    intro b h1 h2
    rcases b with _ | ⟨c, r⟩
    · exact ⟨rfl, rfl⟩
    · have hc : p c = false := h2 c rfl
      constructor
      · simp [List.takeWhile_cons, hc]
      · simp [List.dropWhile_cons, hc]
  | cons x a ih =>
    intro b h1 h2
    have hx : p x = true := h1 x (by simp)
    obtain ⟨iht, ihd⟩ := ih b (fun c hc => h1 c (by simp [hc])) h2
    constructor
    · simp [List.takeWhile_cons, hx, iht]
    · simp [List.dropWhile_cons, hx, ihd]

/-- C6 (amended): a run of decimal digits that the scan actually reaches as a
numeric literal (it stands, after whitespace, at the current scan position)
and whose value exceeds the 32-bit signed range makes that match attempt fail
with the overflow parse error; and a read or peek call that pulls a line
whose scan fails returns exactly that scan error.  Digit runs the scan never
reaches — inside a comment, inside a string literal, or beyond the position
where scanning stopped — are not parsed and raise no error (see the
counterexample). -/
theorem c6_numeric_overflow :
    (∀ (ln : Nat) (cs ds rest' : List Char),
      cs.dropWhile isWs = ds ++ rest' → ds ≠ [] →
      (∀ c ∈ ds, isDigit c = true) →
      (∀ c, rest'.head? = some c → isDigit c = false) →
      2147483647 < digitsVal ds →
      scanOne ln cs = ScanStep.err "number too large to fit in target type") ∧
    (∀ (s : LexerState) (l : List Char) (ls : List (List Char))
       (ts : List Token) (e : String),
      s.token_queue = [] → s.has_more = true → s.input = l :: ls →
      scanTokens (s.line_number + 1) l = (ts, some e) →
      (read s).1 = Except.error e ∧ ∀ i : Nat, (peek s i).1 = Except.error e) := by
  constructor
  · intro ln cs ds rest' hdw hne hdig hrest hval
    rcases ds with _ | ⟨c, ds'⟩
    · exact absurd rfl hne
    simp only [List.cons_append] at hdw
    simp only [scanOne, hdw]
    have hc : isDigit c = true := hdig c (by simp)
    have hslash : ¬(c = '/' ∧ (ds' ++ rest').head? = some '/') := by
      rintro ⟨rfl, -⟩
      exact absurd hc (by decide)
    rw [if_neg hslash, if_pos hc]
    obtain ⟨ht, hd⟩ := takeWhile_all_append isDigit ds' rest'
        (fun x hx => hdig x (by simp [hx])) hrest
    rw [ht]
    have hp : parse_i32 (c :: ds') = Except.error
        "number too large to fit in target type" := by
      unfold parse_i32
      rw [if_neg (by omega)]
    simp only [hp]
  · intro s l ls ts e hq hm hin hscan
    refine ⟨?_, fun i => peek_scan_err s l ls ts e i hq hm hin hscan⟩
    rw [read_scan_err s l ls ts e hq hm hin hscan]

/-- C6 witness: concrete instances of both parts — the oversized literal
9999999999 aborts the match attempt, and pulling the line x 9999999999
surfaces that error from read and from peek. -/
theorem c6_numeric_overflow_witness :
    scanOne 1 ['9', '9', '9', '9', '9', '9', '9', '9', '9', '9'] =
      ScanStep.err "number too large to fit in target type" ∧
    (read (initLexer [['x', ' ', '9', '9', '9', '9', '9', '9', '9', '9', '9', '9']])).1 =
      Except.error "number too large to fit in target type" ∧
    (peek (initLexer [['x', ' ', '9', '9', '9', '9', '9', '9', '9', '9', '9', '9']]) 5).1 =
      Except.error "number too large to fit in target type" := by
  have h1 := c6_numeric_overflow.1 1
      ['9', '9', '9', '9', '9', '9', '9', '9', '9', '9']
      ['9', '9', '9', '9', '9', '9', '9', '9', '9', '9'] []
      (by decide) (by decide) (by decide) (fun c hc => by simp at hc) (by decide)
  have h2 := c6_numeric_overflow.2
      (initLexer [['x', ' ', '9', '9', '9', '9', '9', '9', '9', '9', '9', '9']])
      ['x', ' ', '9', '9', '9', '9', '9', '9', '9', '9', '9', '9'] []
      [IdToken_new 1 ['x']] "number too large to fit in target type"
      rfl rfl rfl (by decide)
  exact ⟨h1, h2.1, h2.2 5⟩

/-- C6 counterexample to the claim as stated: the line // 9999999999 contains
a run of decimal digits whose value exceeds the 32-bit signed range, yet its
scan does not fail — the comment is discarded, the whole token stream is just
the end-of-line and end-of-input tokens, and the read that pulls the line
succeeds. -/
theorem c6_overflow_in_comment_not_surfaced :
    2147483647 < digitsVal ['9', '9', '9', '9', '9', '9', '9', '9', '9', '9'] ∧
    drain (initLexer [['/', '/', ' ', '9', '9', '9', '9', '9', '9', '9', '9', '9', '9']]) =
      [EolToken_new 1, EofToken_new 1] ∧
    (read (initLexer [['/', '/', ' ', '9', '9', '9', '9', '9', '9', '9', '9', '9', '9']])).1 =
      Except.ok (EolToken_new 1) :=
  ⟨by decide, by decide, by decide⟩

/-- C7: every STRING token the scanner produces carries the current line
number and exactly the characters of the matched lexeme between its two
outer quotes, kept verbatim (escape sequences are not decoded: the stored
text is character-for-character a segment of the scanned line); and the spec
example holds — the input line quote-hello-quote yields String(hello, 1),
EndOfLine(1), EndOfInput(1). -/
theorem c7_string_literal_verbatim (k ln : Nat) (cs lit rest : List Char)
    (h : scanOne k cs = ScanStep.tok (Token.STRING ln lit) rest) :
    ln = k ∧ cs.dropWhile isWs = '"' :: lit ++ '"' :: rest ∧
    drain (initLexer [['"', 'h', 'e', 'l', 'l', 'o', '"']]) =
      [Token.STRING 1 ['h', 'e', 'l', 'l', 'o'], EolToken_new 1, EofToken_new 1] := by
  have hparts : ln = k ∧ cs.dropWhile isWs = '"' :: lit ++ '"' :: rest := by
    rcases hdw : cs.dropWhile isWs with _ | ⟨c, cr⟩
    · simp only [scanOne, hdw] at h
      exact ScanStep.noConfusion h
    · simp only [scanOne, hdw] at h
      by_cases h1 : c = '/' ∧ cr.head? = some '/'
      · rw [if_pos h1] at h; exact ScanStep.noConfusion h
      rw [if_neg h1] at h
      by_cases h2 : isDigit c = true
      · rw [if_pos h2] at h
        rcases hp : parse_i32 (c :: cr.takeWhile isDigit) with e | nv <;>
          simp only [hp] at h
        · exact ScanStep.noConfusion h
        · simp [NumberToken_new] at h
      rw [if_neg h2] at h
      by_cases h3 : c = '"'
      · rw [if_pos h3] at h
        rcases hsb : scanBody cr with _ | ⟨⟨cwc, r2⟩⟩ <;> simp only [hsb] at h
        · simp [IdToken_new] at h
        · simp only [StringToken_new, ScanStep.tok.injEq, Token.STRING.injEq] at h
          obtain ⟨⟨hlnk, hlit⟩, hrest⟩ := h
          obtain ⟨mid, hm1, hm2⟩ := scanBody_spec cr cwc r2 hsb
          have hlitm : lit = mid := by
            rw [← hlit, hm1]
            simp [List.dropLast_concat]
          refine ⟨hlnk.symm, ?_⟩
          rw [h3, hm2, hlitm, hrest]
          simp
      rw [if_neg h3] at h
      by_cases h4 : isIdStart c = true
      · rw [if_pos h4] at h
        simp [IdToken_new] at h
      rw [if_neg h4] at h
      rcases h5 : twoCharOp c cr with _ | ⟨⟨op, r2⟩⟩ <;> simp only [h5] at h
      · by_cases h6 : isPunct c = true
        · rw [if_pos h6] at h
          simp [IdToken_new] at h
        · rw [if_neg h6] at h
          exact ScanStep.noConfusion h
      · simp [IdToken_new] at h
  exact ⟨hparts.1, hparts.2, by decide⟩

/-- C7 witness: the string literal with a verbatim escaped n, followed by
more line content. -/
theorem c7_string_literal_verbatim_witness :
    scanOne 1 ['"', 'a', '\\', 'n', 'b', '"', ' ', 'x'] =
      ScanStep.tok (Token.STRING 1 ['a', '\\', 'n', 'b']) [' ', 'x'] ∧
    ['"', 'a', '\\', 'n', 'b', '"', ' ', 'x'].dropWhile isWs =
      '"' :: ['a', '\\', 'n', 'b'] ++ '"' :: [' ', 'x'] := by
  have h : scanOne 1 ['"', 'a', '\\', 'n', 'b', '"', ' ', 'x'] =
      ScanStep.tok (Token.STRING 1 ['a', '\\', 'n', 'b']) [' ', 'x'] := by decide
  exact ⟨h, (c7_string_literal_verbatim 1 1 _ _ _ h).2.1⟩

/-- C8: the scan of a line stops immediately at a line comment, at a
position where nothing matches (empty or pure-whitespace remainder, or an
unrecognized character — one that is no digit, no quote, no identifier
start and no ASCII punctuation), and from the stop position no further token
of the line is produced; still, for every line whose scan ends without a
parse error, read_line appends exactly one end-of-line token after the
scanned tokens, none of which is itself an end-of-line token — also when the
line produced zero content tokens. -/
theorem c8_scan_stop_and_eol :
    (∀ (ln : Nat) (cs cs' : List Char),
      cs.dropWhile isWs = '/' :: '/' :: cs' → scanOne ln cs = ScanStep.stop) ∧
    (∀ (ln : Nat) (cs : List Char),
      cs.dropWhile isWs = [] → scanOne ln cs = ScanStep.stop) ∧
    (∀ (ln : Nat) (cs : List Char) (c : Char) (rest : List Char),
      cs.dropWhile isWs = c :: rest →
      ¬(c = '/' ∧ rest.head? = some '/') →
      isDigit c = false → c ≠ '"' → isIdStart c = false → isPunct c = false →
      scanOne ln cs = ScanStep.stop) ∧
    (∀ (ln : Nat) (cs : List Char),
      scanOne ln cs = ScanStep.stop → scanTokens ln cs = ([], none)) ∧
    (∀ (s : LexerState) (l : List Char) (ls : List (List Char)) (ts : List Token),
      s.input = l :: ls → scanTokens (s.line_number + 1) l = (ts, none) →
      read_line s =
        ({ s with line_number := s.line_number + 1, input := ls,
                  token_queue := s.token_queue ++ ts ++
                    [EolToken_new (s.line_number + 1)] }, none) ∧
      ∀ t ∈ ts, isEolTok t = false) := by
  refine ⟨?_, ?_, ?_, ?_, ?_⟩
  · intro ln cs cs' hdw
    simp only [scanOne, hdw]
    simp
  · intro ln cs hdw
    simp only [scanOne, hdw]
  · intro ln cs c rest hdw h1 h2 h3 h4 h5
    simp only [scanOne, hdw, if_neg h1,
      if_neg (show ¬ isDigit c = true by simp [h2]), if_neg h3,
      if_neg (show ¬ isIdStart c = true by simp [h4]),
      twoCharOp_none_of_not_punct c rest h5]
    rw [if_neg (show ¬ isPunct c = true by simp [h5])]
  · intro ln cs h
    exact scanTokens_stop ln cs h
  · intro s l ls ts hin hscan
    refine ⟨?_, fun t ht => ?_⟩
    · rw [read_line_cons s l ls hin, hscan]
    · exact (scanTokens_no_eol (s.line_number + 1) l t (by rw [hscan]; exact ht)).1

/-- C8 witness: a comment stop, a whitespace-only stop, an
unrecognized-character stop, a mid-line comment dropping the rest of the
line after one token, and a comment-only line still receiving exactly its
end-of-line token. -/
theorem c8_scan_stop_and_eol_witness :
    scanOne 1 ['/', '/', 'x'] = ScanStep.stop ∧
    scanOne 1 [' '] = ScanStep.stop ∧
    scanOne 1 [Char.ofNat 1] = ScanStep.stop ∧
    scanTokens 1 ['a', ' ', '/', '/', 'x'] = ([IdToken_new 1 ['a']], none) ∧
    read_line (initLexer [['/', '/', 'x']]) =
      ({ has_more := true, token_queue := [EolToken_new 1], line_number := 1,
         input := [] }, none) := by
  refine ⟨?_, ?_, ?_, by decide, ?_⟩
  · exact c8_scan_stop_and_eol.1 1 _ ['x'] (by decide)
  · exact c8_scan_stop_and_eol.2.1 1 _ (by decide)
  · exact c8_scan_stop_and_eol.2.2.1 1 _ (Char.ofNat 1) [] (by decide) (by decide)
      (by decide) (by decide) (by decide) (by decide)
  · exact (c8_scan_stop_and_eol.2.2.2.2 (initLexer [['/', '/', 'x']])
      ['/', '/', 'x'] [] [] rfl (by decide)).1

/-- C10: when a numeric literal on a newly pulled line fails to parse, the
failure is not atomic, whether read or peek triggered the pull: read returns
the scan error, and peek at any offset returns the same error, in both cases
leaving the tokens scanned before the failing literal already in the queue
with the line counter incremented and the failed line consumed; a subsequent
read from that post-failure state returns the first of those earlier tokens
successfully; and no end-of-line token is appended for the failed line (none
of the queued tokens is an end-of-line token). -/
theorem c10_partial_scan_failure (s : LexerState) (l : List Char)
    (ls : List (List Char)) (ts : List Token) (e : String)
    (hm : s.has_more = true) (hq : s.token_queue = []) (hin : s.input = l :: ls)
    (hscan : scanTokens (s.line_number + 1) l = (ts, some e)) :
    read s = (Except.error e,
      { s with line_number := s.line_number + 1, input := ls,
               token_queue := s.token_queue ++ ts }) ∧
    (∀ i : Nat, peek s i = (Except.error e,
      { s with line_number := s.line_number + 1, input := ls,
               token_queue := s.token_queue ++ ts })) ∧
    (∀ (t : Token) (ts' : List Token), ts = t :: ts' →
      (read { s with line_number := s.line_number + 1, input := ls,
                     token_queue := s.token_queue ++ ts }).1 = Except.ok t) ∧
    (∀ t ∈ ts, isEolTok t = false) := by
  refine ⟨read_scan_err s l ls ts e hq hm hin hscan,
    fun i => peek_scan_err_state s l ls ts e i hq hm hin hscan,
    ?_, fun t ht => ?_⟩
  · intro t ts' hts
    subst hts
    rw [read_cons _ t (s.token_queue ++ ts') (by simp [hq])]
  · exact (scanTokens_no_eol (s.line_number + 1) l t (by rw [hscan]; exact ht)).1

/-- C10 witness: the line x 9999999999 — read fails with the overflow
message, a peek at offset 3 fails identically leaving the same state, the
identifier x is already queued with the line counter at 1, and the next read
returns it. -/
theorem c10_partial_scan_failure_witness :
    read (initLexer [['x', ' ', '9', '9', '9', '9', '9', '9', '9', '9', '9', '9']]) =
      (Except.error "number too large to fit in target type",
       { has_more := true, token_queue := [IdToken_new 1 ['x']], line_number := 1,
         input := [] }) ∧
    peek (initLexer [['x', ' ', '9', '9', '9', '9', '9', '9', '9', '9', '9', '9']]) 3 =
      (Except.error "number too large to fit in target type",
       { has_more := true, token_queue := [IdToken_new 1 ['x']], line_number := 1,
         input := [] }) ∧
    (read { has_more := true, token_queue := [IdToken_new 1 ['x']], line_number := 1,
            input := ([] : List (List Char)) }).1 = Except.ok (IdToken_new 1 ['x']) := by
  have h := c10_partial_scan_failure
      (initLexer [['x', ' ', '9', '9', '9', '9', '9', '9', '9', '9', '9', '9']])
      ['x', ' ', '9', '9', '9', '9', '9', '9', '9', '9', '9', '9'] []
      [IdToken_new 1 ['x']] "number too large to fit in target type"
      rfl rfl rfl (by decide)
  exact ⟨h.1, h.2.1 3, h.2.2.1 (IdToken_new 1 ['x']) [] rfl⟩

theorem iterState_list (ts : List Token) (k : Nat) :
    iterState (ASTree.LIST ts) k = ⟨k⟩ := by
  induction k with
  | zero => rfl
  | succ k ih => simp [iterState, ASTreeIter.next, ih]

theorem iterOutput_eq_child_toOption (t : ASTree) (k : Nat) :
    iterOutput t k = (t.child k).toOption := by
  cases t with
  | LEAF tok => simp [iterOutput, ASTreeIter.next, ASTree.child, Except.toOption]
  | LIST ts => simp [iterOutput, ASTreeIter.next, iterState_list]

/-- C9: the children iterator agrees with indexed access: the k-th call of
next yields exactly the ok value of child(k) (hence some token for every
k below children_number and none from children_number on, so the iterator
yields exactly children_number items), and on a LEAF already the first call
of next yields none. -/
theorem c9_children_iter_agrees (t : ASTree) (k : Nat) :
    iterOutput t k = (t.child k).toOption ∧
    ((iterOutput t k).isSome ↔ k < t.children_number) ∧
    (∀ tok : Token, iterOutput (ASTree.LEAF tok) 0 = none) := by
  refine ⟨iterOutput_eq_child_toOption t k, ?_, fun tok => rfl⟩
  rw [iterOutput_eq_child_toOption]
  cases t with
  | LEAF tok =>
    simp [ASTree.child, ASTree.children_number, Except.toOption]
  | LIST ts =>
    rcases h : ts[k]? with _ | tok
    · have := List.getElem?_eq_none_iff.mp h
      simp [ASTree.child, ASTree.children_number, Except.toOption, h]
      omega
    · have : k < ts.length := by
        by_contra hk
        rw [List.getElem?_eq_none_iff.mpr (by omega)] at h
        exact Option.noConfusion h
      simp [ASTree.child, ASTree.children_number, Except.toOption, h, this]

/-- C9 witness: on a one-element LIST the first next call yields the stored
token, the second yields none; on a LEAF the first call yields none. -/
theorem c9_children_iter_agrees_witness :
    iterOutput (ASTree.LIST [EolToken_new 3]) 0 = some (EolToken_new 3) ∧
    iterOutput (ASTree.LIST [EolToken_new 3]) 1 = none ∧
    iterOutput (ASTree.LEAF (EolToken_new 3)) 0 = none :=
  ⟨(c9_children_iter_agrees (ASTree.LIST [EolToken_new 3]) 0).1.trans (by decide),
   (c9_children_iter_agrees (ASTree.LIST [EolToken_new 3]) 1).1.trans (by decide),
   (c9_children_iter_agrees (ASTree.LEAF (EolToken_new 3)) 0).2.2 (EolToken_new 3)⟩

/-- C1 counterexample: child(0) on a LEAF fails with the very same
"Out of bounds!" error string the LIST variant answers for an out-of-range
index, so the LEAF failure is not an error distinct from the out-of-bounds
error as the claim states. -/
theorem c1_leaf_error_not_distinct :
    ASTree.child (ASTree.LEAF (EolToken_new 1)) 0 = Except.error "Out of bounds!" ∧
    ASTree.child (ASTree.LIST [EolToken_new 1]) 5 = Except.error "Out of bounds!" ∧
    ASTree.child (ASTree.LEAF (EolToken_new 1)) 0 =
      ASTree.child (ASTree.LIST [EolToken_new 1]) 5 := by
  refine ⟨rfl, by decide, by decide⟩

/-- C1 (amended): child(i) on a LEAF always fails, but with the same
"Out of bounds!" error the LIST variant uses for an out-of-range index, not
with a distinct error; on a LIST built with N children, child(i) returns the
i-th inserted child for every i below N and fails with the out-of-bounds
error for every i from N on. -/
theorem c1_child_indexing (tok : Token) (ts : List Token) (i : Nat) :
    ASTree.child (ASTree.LEAF tok) i = Except.error "Out of bounds!" ∧
    (∀ h : i < ts.length, ASTree.child (ASTree.LIST ts) i = Except.ok ts[i]) ∧
    (ts.length ≤ i → ASTree.child (ASTree.LIST ts) i = Except.error "Out of bounds!") := by
  refine ⟨rfl, fun h => ?_, fun h => ?_⟩
  · simp [ASTree.child, List.getElem?_eq_getElem h]
  · simp [ASTree.child, List.getElem?_eq_none_iff.mpr h]

/-- C1 witness: concrete instances of the three parts of the amended claim. -/
theorem c1_child_indexing_witness :
    ASTree.child (ASTree.LEAF (EolToken_new 1)) 0 = Except.error "Out of bounds!" ∧
    ASTree.child (ASTree.LIST [EolToken_new 1, EolToken_new 2]) 1 =
      Except.ok (EolToken_new 2) ∧
    ASTree.child (ASTree.LIST [EolToken_new 1, EolToken_new 2]) 2 =
      Except.error "Out of bounds!" :=
  ⟨(c1_child_indexing (EolToken_new 1) [] 0).1,
   ((c1_child_indexing (EolToken_new 1) [EolToken_new 1, EolToken_new 2] 1).2.1
      (by decide)).trans (by decide),
   (c1_child_indexing (EolToken_new 1) [EolToken_new 1, EolToken_new 2] 2).2.2
      (by decide)⟩

/-- C2 counterexample: location() on a LIST with zero children reaches the
unwrap of a None and aborts — represented here by the result none — instead
of producing any recoverable error result. -/
theorem c2_location_empty_list_aborts :
    ASTree.location (ASTree.LIST []) = none := rfl

/-- C2 (amended): location() on a LIST with at least one child returns the
location string of the first child, and on a LEAF the location of its token;
on a LIST with zero children it panics (unwrap on None, modelled as none)
rather than returning a recoverable error result. -/
theorem c2_location_amended (t tok : Token) (ts : List Token) :
    ASTree.location (ASTree.LIST (t :: ts)) = some (ASTree.get_location_from_token t) ∧
    ASTree.location (ASTree.LEAF tok) = some (ASTree.get_location_from_token tok) ∧
    ASTree.location (ASTree.LIST []) = none :=
  ⟨rfl, rfl, rfl⟩

end TwoWeekScript
